import Mathlib

/-!
Verification development for the Benford-analysis spreadsheet tool
(`scripts/benford_analysis.py`).

The Python source is shallowly embedded: floats become exact rationals
(`ℚ`), XML cell/row records become plain structures holding the attribute
strings the code reads, Python dictionaries become association lists with
replace-on-insert semantics, and the two fatal `ValueError`s of
`load_first_sheet` become an `Except` error type.  Python builtins used by
the code (`int(str)`, `float(str)`, `str.lower`, `str.strip`, list
indexing, `max`, `sort`) are modelled by the `py*` helpers below; the
models cover the ASCII regime exercised by the code (Python additionally
accepts underscore digit separators, Unicode digits/whitespace and
`inf`/`nan`, none of which matter for the properties proved here).
-/

/-! ## Models of Python builtins -/

/-- ASCII whitespace stripped by Python `str.strip()` / accepted around
`int()` and `float()` literals. -/
def isPySpace (c : Char) : Bool :=
  c == ' ' || c == '\t' || c == '\n' || c == '\r' || c == '\x0b' || c == '\x0c'

/-- Strip leading and trailing whitespace from a character list. -/
def pyStripChars (cs : List Char) : List Char :=
  ((cs.dropWhile isPySpace).reverse.dropWhile isPySpace).reverse

/-- Model of Python `str.strip()`. -/
def pyStrip (s : String) : String := String.mk (pyStripChars s.data)

/-- Numeric value of an ASCII digit character. -/
def digitVal (c : Char) : ℕ := c.toNat - 48

/-- Value of a non-empty ASCII digit string, most significant digit first. -/
def natOfDigits (cs : List Char) : ℕ := cs.foldl (fun n c => n * 10 + digitVal c) 0

/-- Parse a non-empty all-digit character list. -/
def parseDigits (cs : List Char) : Option ℕ :=
  if !cs.isEmpty && cs.all Char.isDigit then some (natOfDigits cs) else none

/-- Parse an optionally signed digit string. -/
def parseSignedDigits (cs : List Char) : Option ℤ :=
  match cs with
  | '+' :: ds => (parseDigits ds).map Int.ofNat
  | '-' :: ds => (parseDigits ds).map fun n => -(n : ℤ)
  | ds => (parseDigits ds).map Int.ofNat

/-- Model of Python `int(s)` for a string: surrounding whitespace, an
optional sign, then decimal digits; anything else raises `ValueError`,
modelled as `none`. -/
def pyInt (s : String) : Option ℤ := parseSignedDigits (pyStripChars s.data)

/-- Model of Python list indexing `l[i]`: non-negative indices count from
the front, negative indices count from the back, and anything outside
`[-len, len)` raises `IndexError`, modelled as `none`. -/
def pyIndex {α : Type} (l : List α) (i : ℤ) : Option α :=
  if 0 ≤ i then l[i.toNat]?
  else if 0 ≤ i + l.length then l[(i + (l.length : ℤ)).toNat]?
  else none

/-- Mantissa of a Python float literal: `digits`, `digits.digits`,
`digits.` or `.digits`. -/
def parseUnsignedMantissa (cs : List Char) : Option ℚ :=
  let ip := cs.takeWhile fun c => !(c == '.')
  match cs.drop ip.length with
  | [] => (parseDigits ip).map fun n => (n : ℚ)
  | '.' :: fp =>
    if (!ip.isEmpty || !fp.isEmpty) && ip.all Char.isDigit && fp.all Char.isDigit then
      some ((natOfDigits ip : ℚ) + (natOfDigits fp : ℚ) / 10 ^ fp.length)
    else none
  | _ => none

/-- Body of a Python float literal: a mantissa with an optional
`e`/`E`-exponent part. -/
def pyFloatBody (cs : List Char) : Option ℚ :=
  let mant := cs.takeWhile fun c => !(c == 'e') && !(c == 'E')
  match cs.drop mant.length with
  | [] => parseUnsignedMantissa mant
  | _ :: etail =>
    match parseUnsignedMantissa mant, parseSignedDigits etail with
    | some m, some e => some (m * (10 : ℚ) ^ e)
    | _, _ => none

/-- Model of Python `float(s)`: whitespace, optional sign, then a decimal
or scientific literal; failure (`ValueError`) is `none`.  The binary
rounding of IEEE doubles is not modelled: values are kept as the exact
rationals denoted by the literal. -/
def pyFloat (s : String) : Option ℚ :=
  match pyStripChars s.data with
  | '+' :: cs => pyFloatBody cs
  | '-' :: cs => (pyFloatBody cs).map Neg.neg
  | cs => pyFloatBody cs

/-- Whether `pat` is an initial segment of `l`. -/
def isLeadOf : List Char → List Char → Bool
  | [], _ => true
  | _ :: _, [] => false
  | a :: as, b :: bs => a == b && isLeadOf as bs

/-- Whether `needle` occurs as a contiguous run inside the second list;
model of Python `needle in hay` on strings. -/
def containsSub (needle : List Char) : List Char → Bool
  | [] => needle.isEmpty
  | c :: t => isLeadOf needle (c :: t) || containsSub needle t

/-- Model of Python `str.lower()` (ASCII range). -/
def lowerStr (s : String) : String := String.mk (s.data.map Char.toLower)

/-- Number of times `p` divides `n`, computed with `n` itself as fuel. -/
def factorCountAux (p : ℕ) : ℕ → ℕ → ℕ
  | 0, _ => 0
  | fuel + 1, n => if 2 ≤ p ∧ 0 < n ∧ n % p = 0 then factorCountAux p fuel (n / p) + 1 else 0

/-- Number of times `p` divides `n`. -/
def factorCount (p n : ℕ) : ℕ := factorCountAux p n n

/-- Left-pad a digit string with zeros to width `k`. -/
def padZeros (k : ℕ) (s : String) : String :=
  String.mk (List.replicate (k - s.data.length) '0' ++ s.data)

/-- Model of Python `str()` on a float, in the fixed-point notation regime:
integral values print with a trailing `.0`, and values with a terminating
decimal expansion print that expansion.  (Python switches to exponent
notation below 1e-4 and at 1e16, and prints the shortest round-tripping
decimal of the underlying IEEE double; within this exact-rational model
every value produced by `pyFloat` has a terminating expansion, which is
what gets printed.)  The final branch is unreachable for such values. -/
def pyFloatStr (q : ℚ) : String :=
  let sign := if q < 0 then "-" else ""
  let a := |q|
  if a.den = 1 then sign ++ toString a.num ++ ".0"
  else
    let k := max (factorCount 2 a.den) (factorCount 5 a.den)
    if 10 ^ k % a.den = 0 then
      let m := a.num.toNat * (10 ^ k / a.den)
      sign ++ toString (m / 10 ^ k) ++ "." ++ padZeros k (toString (m % 10 ^ k))
    else sign ++ toString a.num ++ "/" ++ toString a.den

/-! ## Data model -/

/-- A decoded cell value: Python `None`, `float`, or `str` as produced by
`parse_cell_value`. -/
inductive CellValue where
  | Empty : CellValue
  | Number : ℚ → CellValue
  | Text : String → CellValue
deriving DecidableEq

/-- Model of Python `str(v)` for the values a cell can hold. -/
def pyStr : CellValue → String
  | CellValue.Empty => "None"
  | CellValue.Number q => pyFloatStr q
  | CellValue.Text s => s

/-- Python truthiness of a cell value: `None`, `0.0` and `""` are falsy. -/
def pyFalsy : CellValue → Bool
  | CellValue.Empty => true
  | CellValue.Number q => q = 0
  | CellValue.Text s => s = ""

/-- A worksheet `<c>` element as the code reads it: the `r` and `t`
attributes, the text of the `<t>` node found under an `<is>` child (when
one is found, possibly with no text), and the text of the `<v>` child
(absent node or absent text collapse to `none`). -/
structure XmlCell where
  ref : String
  cellType : Option String
  inlineText : Option String
  valueText : Option String
deriving DecidableEq

/-- A worksheet `<row>` element: its `r` attribute (as the string the XML
carries) and its `<c>` children. -/
structure XmlRow where
  rAttr : Option String
  cells : List XmlCell
deriving DecidableEq

/-- The zip package as the extractor sees it: named parts (every part is
carried with its row records; only worksheet parts ever have theirs read)
plus the already-decoded shared-string table, i.e. the result of
`read_shared_strings`. -/
structure Package where
  parts : List (String × List XmlRow)
  sharedStrings : List String
deriving DecidableEq

/-- Result of `load_first_sheet`. -/
structure SheetData where
  headers : List String
  rows : List (List CellValue)
deriving DecidableEq

/-- The ways `load_first_sheet` raises: `ValueError("No worksheet found in
the Excel file.")`, an uncaught `ValueError` from `int()` on a row's `r`
attribute, and `ValueError("Unable to locate header row.")`. -/
inductive LoadError where
  | FormatError : LoadError
  | RowIndexError : LoadError
  | HeaderMissingError : LoadError
deriving DecidableEq

instance {ε α : Type} [DecidableEq ε] [DecidableEq α] : DecidableEq (Except ε α) := fun a b =>
  match a, b with
  | Except.error e, Except.error f =>
    if h : e = f then isTrue (by rw [h]) else isFalse fun hh => h (Except.error.inj hh)
  | Except.ok x, Except.ok y =>
    if h : x = y then isTrue (by rw [h]) else isFalse fun hh => h (Except.ok.inj hh)
  | Except.error _, Except.ok _ => isFalse fun hh => Except.noConfusion hh
  | Except.ok _, Except.error _ => isFalse fun hh => Except.noConfusion hh

/-! ## CellRef resolver (`column_index_from_ref`) -/

/-- ASCII uppercase, the character class of the regex `[A-Z]+`. -/
def isUpperAZ (c : Char) : Bool := decide ('A' ≤ c) && decide (c ≤ 'Z')

/-- `column_index_from_ref`: the leading run of uppercase letters read as
a base-26 numeral with digit values A=1..Z=26; 0 when there is no match. -/
def column_index_from_ref (cell_ref : String) : ℕ :=
  (cell_ref.data.takeWhile isUpperAZ).foldl (fun r c => r * 26 + (c.toNat - 'A'.toNat + 1)) 0

/-! ## Cell value decoder (`parse_cell_value`) -/

/-- `parse_cell_value`: inline strings return their embedded text;
otherwise the `<v>` text is interpreted according to the `t` attribute.
A shared-string cell indexes the table with Python list indexing and
tolerates `ValueError`/`IndexError` as `Empty`; a numeric or untyped cell
falls back to the raw text when `float()` fails. -/
def parse_cell_value (cell : XmlCell) (shared_strings : List String) : CellValue :=
  if cell.cellType = some "inlineStr" then
    match cell.inlineText with
    | some t => CellValue.Text t
    | none => CellValue.Empty
  else
    match cell.valueText with
    | none => CellValue.Empty
    | some raw =>
      if cell.cellType = some "s" then
        match pyInt raw with
        | none => CellValue.Empty
        | some i =>
          match pyIndex shared_strings i with
          | some s => CellValue.Text s
          | none => CellValue.Empty
      else if cell.cellType = none ∨ cell.cellType = some "n" then
        match pyFloat raw with
        | some q => CellValue.Number q
        | none => CellValue.Text raw
      else CellValue.Text raw

/-! ## Worksheet extractor (`load_first_sheet`) -/

/-- Insert-or-replace into an association list (Python dict assignment;
key order is immaterial to every read the code performs). -/
def dinsert {κ α : Type} [BEq κ] (l : List (κ × α)) (k : κ) (v : α) : List (κ × α) :=
  (l.filter fun p => !(p.1 == k)) ++ [(k, v)]

/-- Name filter for worksheet parts:
`name.startswith("xl/worksheets/sheet") and name.endswith(".xml")`. -/
def isWorksheetName (n : String) : Bool :=
  isLeadOf "xl/worksheets/sheet".data n.data && isLeadOf ".xml".data.reverse n.data.reverse

/-- Boolean lexicographic comparison on character lists. -/
def charListLe : List Char → List Char → Bool
  | [], _ => true
  | _ :: _, [] => false
  | a :: as, b :: bs => a < b || (a == b && charListLe as bs)

/-- Lexicographic order on strings, the order `sorted()` uses on part
names. -/
def strLe (a b : String) : Prop := charListLe a.data b.data = true

instance : DecidableRel strLe := fun a b =>
  inferInstanceAs (Decidable (charListLe a.data b.data = true))

/-- The sorted list of worksheet part names; `sorted(...)` in the code.
Python's sort is stable, and a stable sort with respect to a total
preorder has a unique result, so insertion sort produces the same list. -/
def worksheetNames (pkg : Package) : List String :=
  List.insertionSort strLe ((pkg.parts.map Prod.fst).filter isWorksheetName)

/-- The row records of the selected (lexicographically first) worksheet
part; `zip_file.read(sheet_names[0])` followed by `ET.fromstring`. -/
def chosenSheetRows (pkg : Package) : List XmlRow :=
  match worksheetNames pkg with
  | [] => []
  | first :: _ => ((pkg.parts.find? fun p => p.1 == first).map Prod.snd).getD []

/-- Accumulation state of the row/cell scan: the sparse
`row index → (column index → value)` mapping and the running maximum
column index. -/
structure ScanState where
  rows : List (ℤ × List (ℕ × CellValue))
  maxCol : ℕ
deriving DecidableEq

/-- One cell of a row: resolve the column index, skip index 0, record the
decoded value (replacing an earlier cell with the same index) and bump the
maximum column index. -/
def scanCell (shared : List String) (st : List (ℕ × CellValue) × ℕ) (c : XmlCell) :
    List (ℕ × CellValue) × ℕ :=
  let col := column_index_from_ref c.ref
  if col = 0 then st
  else (dinsert st.1 col (parse_cell_value c shared), max st.2 col)

/-- One `<row>` element: `int(row.attrib.get("r", "0"))` — an unparsable
attribute raises an uncaught `ValueError` — then the cell scan; rows whose
index is 0 are dropped (Python truthiness of `row_idx`) though their cells
still advance the maximum column index. -/
def scanRow (shared : List String) (st : ScanState) (row : XmlRow) : Except LoadError ScanState :=
  match pyInt (row.rAttr.getD "0") with
  | none => Except.error LoadError.RowIndexError
  | some rowIdx =>
    let res := row.cells.foldl (scanCell shared) (([] : List (ℕ × CellValue)), st.maxCol)
    Except.ok ⟨if rowIdx = 0 then st.rows else dinsert st.rows rowIdx res.1, res.2⟩

/-- Scan all row elements in document order. -/
def scanRows (shared : List String) : ScanState → List XmlRow → Except LoadError ScanState
  | st, [] => Except.ok st
  | st, r :: rs =>
    match scanRow shared st r with
    | Except.error e => Except.error e
    | Except.ok st2 => scanRows shared st2 rs

/-- One header entry: `str(rows[1].get(col) or "Column{col}").strip()`;
the fallback fires on a missing cell and on any Python-falsy value
(`None`, `0.0`, `""`). -/
def headerString (hc : List (ℕ × CellValue)) (n : ℕ) : String :=
  pyStrip (match hc.lookup n with
    | some v => if pyFalsy v then "Column" ++ toString n else pyStr v
    | none => "Column" ++ toString n)

/-- Build the header list from the row-1 cell mapping, for columns
1..max_col. -/
def buildHeaders (hc : List (ℕ × CellValue)) (maxCol : ℕ) : List String :=
  (List.range' 1 maxCol).map (headerString hc)

/-- Build the dense data grid: remaining row indices in ascending order,
each row filled with `Empty` where no cell was recorded. -/
def buildDataRows (rows : List (ℤ × List (ℕ × CellValue))) (maxCol : ℕ) : List (List CellValue) :=
  (List.insertionSort (fun a b : ℤ => a ≤ b)
      ((rows.map Prod.fst).filter fun i => !(i == 1))).map fun i =>
    (List.range' 1 maxCol).map fun n => (((rows.lookup i).getD []).lookup n).getD CellValue.Empty

/-- `load_first_sheet`: select the worksheet part, scan its rows, require
a header row at index 1, and assemble the `SheetData`. -/
def load_first_sheet (pkg : Package) : Except LoadError SheetData :=
  match worksheetNames pkg with
  | [] => Except.error LoadError.FormatError
  | _ :: _ =>
    match scanRows pkg.sharedStrings ⟨[], 0⟩ (chosenSheetRows pkg) with
    | Except.error e => Except.error e
    | Except.ok st =>
      match st.rows.lookup 1 with
      | none => Except.error LoadError.HeaderMissingError
      | some hc => Except.ok ⟨buildHeaders hc st.maxCol, buildDataRows st.rows st.maxCol⟩

/-! ## Column classifier (`parse_numeric`, `is_date_like_column`,
`numeric_columns`) -/

/-- `parse_numeric`: `None` and `""` give nothing, numbers pass through,
and other strings are parsed by `float` after removing every comma. -/
def parse_numeric : CellValue → Option ℚ
  | CellValue.Empty => none
  | CellValue.Number q => some q
  | CellValue.Text s =>
    if s = "" then none else pyFloat (String.mk (s.data.filter fun c => !(c == ',')))

/-- A value in the spreadsheet serial-date heuristic window: inside
`[20000, 60000]` and within 0.01 of an integer.  Python's `round` rounds
half to even while Mathlib's rounds half up, but at every half-integer
both leave a distance of 1/2 ≥ 0.01, so the predicate is unaffected. -/
def isDateSerial (v : ℚ) : Bool :=
  decide ((20000 : ℚ) ≤ v) && decide (v ≤ 60000) && decide (|v - (round v : ℤ)| < 1 / 100)

/-- `is_date_like_column`: header containing `"date"` case-insensitively,
or at least 80% of the values in the serial-date window. -/
def is_date_like_column (header : String) (values : List ℚ) : Bool :=
  if containsSub "date".data (lowerStr header).data then true
  else if values.isEmpty then false
  else decide ((4 : ℚ) / 5 ≤ ((values.filter isDateSerial).length : ℚ) / (values.length : ℚ))

/-- Keys of the dict comprehension `{header: [] for header in headers}`:
first occurrence of each header, in order. -/
def pyDictKeys : List String → List String :=
  fun l => l.foldl (fun acc h => if h ∈ acc then acc else acc ++ [h]) []

/-- The initial `columns` dict: every distinct header mapped to `[]`. -/
def initCols (headers : List String) : List (String × List ℚ) :=
  (pyDictKeys headers).map fun h => (h, [])

/-- `columns[header].append(value)`. -/
def appendAt (cols : List (String × List ℚ)) (h : String) (q : ℚ) : List (String × List ℚ) :=
  cols.map fun p => if p.1 = h then (p.1, p.2 ++ [q]) else p

/-- One `(header, value)` pair of a row: append the parsed numeric value
when there is one. -/
def processPair (cols : List (String × List ℚ)) (p : String × CellValue) :
    List (String × List ℚ) :=
  match parse_numeric p.2 with
  | some q => appendAt cols p.1 q
  | none => cols

/-- `numeric_columns`: gather parsed values per header over all rows, then
keep the non-empty, non-date-like columns. -/
def numeric_columns (sheet : SheetData) : List (String × List ℚ) :=
  let cols := sheet.rows.foldl
    (fun c row => (sheet.headers.zip row).foldl processPair c) (initCols sheet.headers)
  cols.filter fun p => !p.2.isEmpty && !is_date_like_column p.1 p.2

/-- The parsed numeric values a header collects: over all rows in order,
the parseable cells of every column carrying that header. -/
def rowContribution (h : String) (pairs : List (String × CellValue)) : List ℚ :=
  pairs.filterMap fun p => if p.1 = h then parse_numeric p.2 else none

/-- All parsed values of header `h`, merged across identically-named
columns in row-major order. -/
def columnValues (sheet : SheetData) (h : String) : List ℚ :=
  sheet.rows.flatMap fun row => rowContribution h (sheet.headers.zip row)

/-! ## Benford engine (`leading_digits`, `benford_for_column`,
`summarize_benford`)

The expected distribution `EXPECTED_DIGITS[d] = log10(1 + 1/d)` is a
transcendental real; the engine is therefore parametrised over an
arbitrary rational table `expd : ℕ → ℚ` standing for it.  Every property
proved below holds for every such table, in particular for any rational
reading of `log10(1 + 1/d)`. -/

/-- `leading_digits`: skip zeros, take `|v|`, divide by
`10 ** floor(log10 |v|)` and truncate (`Int.log 10` is exactly
`floor(log10 ·)` on positive rationals), keeping only results in 1..9. -/
def leading_digits : List ℚ → List ℕ
  | [] => []
  | v :: rest =>
    if v = 0 then leading_digits rest
    else
      let a := |v|
      let l := (⌊a / (10 : ℚ) ^ Int.log 10 a⌋).toNat
      if 1 ≤ l ∧ l ≤ 9 then l :: leading_digits rest else leading_digits rest

/-- `counts[d]`: occurrences of digit `d` in the leading-digit list. -/
def digitCount (values : List ℚ) (d : ℕ) : ℕ := (leading_digits values).count d

/-- `total = sum(counts.values())` over digits 1..9. -/
def totalCount (values : List ℚ) : ℕ := ((List.range' 1 9).map (digitCount values)).sum

/-- `observed = counts[digit] / total if total else 0`. -/
def observedOf (values : List ℚ) (d : ℕ) : ℚ :=
  if totalCount values ≠ 0 then (digitCount values d : ℚ) / (totalCount values : ℚ) else 0

/-- One row of the digit-detail table. -/
structure DigitRow where
  column : String
  digit : ℕ
  count : ℕ
  observed : ℚ
  expected : ℚ
  deviation : ℚ
deriving DecidableEq

/-- The digit-`d` row of one column. -/
def digitRowOf (expd : ℕ → ℚ) (values : List ℚ) (label : String) (d : ℕ) : DigitRow :=
  ⟨label, d, digitCount values d, observedOf values d, expd d,
    observedOf values d - expd d⟩

/-- `benford_for_column`: the nine digit rows of one column. -/
def benford_for_column (expd : ℕ → ℚ) (values : List ℚ) (label : String) : List DigitRow :=
  (List.range' 1 9).map (digitRowOf expd values label)

/-- `|observed(d) − expected(d)|` for one column. -/
def absDev (expd : ℕ → ℚ) (values : List ℚ) (d : ℕ) : ℚ :=
  |observedOf values d - expd d|

/-- One row of the summary table. -/
structure SummaryRow where
  column : String
  total_values : ℕ
  mad : ℚ
  max_abs_deviation : ℚ
  top_deviation_digit : ℕ
deriving DecidableEq

/-- Python `max(iterable, key=...)` given a first element: keep the
current best, replacing it only on a strictly larger key, so the first
maximal element wins. -/
def maxByKeyAux {α : Type} (key : α → ℚ) (best : α) : List α → α
  | [] => best
  | y :: ys => maxByKeyAux key (if key best < key y then y else best) ys

/-- Python `max(list)` on rationals with the code's `if deviations else 0`
guard applied by the caller; 0 on the empty list. -/
def pyMaxQ : List ℚ → ℚ
  | [] => 0
  | x :: xs => xs.foldl max x

/-- The summary row of one column, from the full digit-detail list. -/
def summaryFor (digit_detail : List DigitRow) (label : String) : SummaryRow :=
  let column_rows := digit_detail.filter fun r => r.column == label
  let deviations := column_rows.map fun r => |r.deviation|
  let total_values := (column_rows.map DigitRow.count).sum
  let top := match column_rows with
    | [] => 0
    | x :: xs => (maxByKeyAux (fun r => |r.deviation|) x xs).digit
  ⟨label, total_values,
    if deviations.isEmpty then 0 else deviations.sum / (deviations.length : ℚ),
    if deviations.isEmpty then 0 else pyMaxQ deviations,
    top⟩

/-- The descending-MAD order used by `summary.sort(key=..., reverse=True)`. -/
def madGe (a b : SummaryRow) : Prop := b.mad ≤ a.mad

instance : DecidableRel madGe := fun a b => inferInstanceAs (Decidable (b.mad ≤ a.mad))

/-- `summarize_benford`: the digit detail of every column, and one summary
row per column sorted by descending MAD.  Python's sort is stable and
stable sorting has a unique result, so insertion sort matches it. -/
def summarize_benford (expd : ℕ → ℚ) (columns : List (String × List ℚ)) :
    List SummaryRow × List DigitRow :=
  let digit_detail := columns.flatMap fun p => benford_for_column expd p.2 p.1
  let summary := columns.map fun p => summaryFor digit_detail p.1
  (List.insertionSort madGe summary, digit_detail)

instance : IsTotal SummaryRow madGe := ⟨fun a b => le_total b.mad a.mad⟩

instance : IsTrans SummaryRow madGe := ⟨fun _ _ _ h1 h2 => le_trans h2 h1⟩

/-! ## Spec-side definitions

These follow the wording of the specification (not the code) and are
compared with the translated code above in the refinement theorems. -/

/-- Spec wording of the leading digit of a non-zero value:
`floor(|v| / 10 ** floor(log10 |v|))`. -/
def leadingDigitOf (v : ℚ) : ℕ := (⌊|v| / (10 : ℚ) ^ Int.log 10 |v|⌋).toNat

/-- Spec wording of leading-digit extraction: zeros are excluded entirely,
every other value contributes its computed leading digit exactly when that
digit lies in 1..9, and out-of-range results are silently dropped. -/
def spec_leading_digits (values : List ℚ) : List ℕ :=
  values.filterMap fun v =>
    if v = 0 then none
    else if 1 ≤ leadingDigitOf v ∧ leadingDigitOf v ≤ 9 then some (leadingDigitOf v) else none

/-- Spec wording of "header text contains the substring `date`
case-insensitively". -/
def HeaderMentionsDate (h : String) : Prop :=
  ∃ l₁ l₂, (lowerStr h).data = l₁ ++ "date".data ++ l₂

/-- Spec wording of "within 0.01 of an integer". -/
def NearInteger (v : ℚ) : Prop := ∃ n : ℤ, |v - (n : ℚ)| < 1 / 100

/-- Spec wording of "at least 80% of the parsed numeric values are
serial-date-like". -/
def DateRatioHigh (vs : List ℚ) : Prop :=
  (4 : ℚ) / 5 * vs.length ≤ ((vs.filter isDateSerial).length : ℚ)

/-! ## Concrete inputs used by witnesses and counterexamples -/

/-- The zero expected-distribution table (any table works; the engine
theorems are uniform in it). -/
def e0 : ℕ → ℚ := fun _ => 0

/-- A sheet with two identically-named columns, for the duplicate-header
claim. -/
def sheetX : SheetData :=
  ⟨["X", "X"], [[CellValue.Number 1, CellValue.Number 2], [CellValue.Number 3, CellValue.Empty]]⟩

/-- A sheet with one header and no data rows. -/
def sheetE : SheetData := ⟨["abc"], []⟩

/-- A package whose single worksheet has one text header cell and no data
rows. -/
def pkgT : Package :=
  ⟨[("xl/worksheets/sheet1.xml", [⟨some "1", [⟨"A1", none, none, some "abc"⟩]⟩])], []⟩

/-- A package whose header cell A1 holds the number 0. -/
def pkgZ : Package :=
  ⟨[("xl/worksheets/sheet1.xml", [⟨some "1", [⟨"A1", none, none, some "0"⟩]⟩])], []⟩

/-- A package whose single worksheet has a row with an unparsable `r`
attribute. -/
def pkgR : Package :=
  ⟨[("xl/worksheets/sheet1.xml", [⟨some "x", []⟩])], []⟩

/-- A sheet used by the classifier witness. -/
def sheetA : SheetData := ⟨["Amount"], [[CellValue.Number 5]]⟩

/-! ## Helper lemmas -/

theorem log10_bounds (a : ℚ) (ha : 0 < a) :
    (10 : ℚ) ^ Int.log 10 a ≤ a ∧ a < (10 : ℚ) ^ (Int.log 10 a + 1) := by
  have h1 := @Int.zpow_log_le_self ℚ _ _ 10 a (by norm_num) ha
  have h2 := @Int.lt_zpow_succ_log_self ℚ _ _ 10 (by norm_num) a
  norm_num at h1 h2
  exact ⟨h1, h2⟩

theorem leadingDigitOf_range (v : ℚ) (hv : v ≠ 0) :
    1 ≤ leadingDigitOf v ∧ leadingDigitOf v ≤ 9 := by
  have ha : 0 < |v| := abs_pos.2 hv
  obtain ⟨h1, h2⟩ := log10_bounds |v| ha
  have hp : (0 : ℚ) < (10 : ℚ) ^ Int.log 10 |v| := zpow_pos (by norm_num) _
  have hge : (1 : ℚ) ≤ |v| / (10 : ℚ) ^ Int.log 10 |v| := (one_le_div hp).2 h1
  have hlt : |v| / (10 : ℚ) ^ Int.log 10 |v| < 10 := by
    rw [div_lt_iff₀ hp]
    calc |v| < (10 : ℚ) ^ (Int.log 10 |v| + 1) := h2
      _ = 10 * (10 : ℚ) ^ Int.log 10 |v| := by
          rw [zpow_add_one₀ (by norm_num : (10 : ℚ) ≠ 0)]; ring
  have hfl : (1 : ℤ) ≤ ⌊|v| / (10 : ℚ) ^ Int.log 10 |v|⌋ := Int.le_floor.2 (by exact_mod_cast hge)
  have hfu : ⌊|v| / (10 : ℚ) ^ Int.log 10 |v|⌋ < (10 : ℤ) := Int.floor_lt.2 (by exact_mod_cast hlt)
  unfold leadingDigitOf
  omega

/-! ## Claim theorems -/

/-- C2: leading-digit extraction excludes zero values entirely; every
non-zero value contributes `floor(|v| / 10 ^ floor(log10 |v|))`, retained
only when in 1..9 (out-of-range results silently dropped); moreover
`Int.log 10 |v|` really is `floor(log10 |v|)` (it satisfies
`10^e ≤ |v| < 10^(e+1)`), and in exact arithmetic the computed digit
always lies in 1..9. -/
theorem c2_leading_digits (values : List ℚ) :
    leading_digits values = spec_leading_digits values ∧
    ∀ v ∈ values, v ≠ 0 →
      ((10 : ℚ) ^ Int.log 10 |v| ≤ |v| ∧ |v| < (10 : ℚ) ^ (Int.log 10 |v| + 1)) ∧
      1 ≤ leadingDigitOf v ∧ leadingDigitOf v ≤ 9 := by
  constructor
  · induction values with
    | nil => rfl
    | cons v rest ih =>
      by_cases hz : v = 0
      · have h1 : leading_digits (v :: rest) = leading_digits rest := by
          simp [leading_digits, hz]
        have h2 : spec_leading_digits (v :: rest) = spec_leading_digits rest := by
          simp [spec_leading_digits, hz]
        rw [h1, h2]; exact ih
      · by_cases hr : 1 ≤ leadingDigitOf v ∧ leadingDigitOf v ≤ 9
        · have hr2 := hr
          unfold leadingDigitOf at hr2
          have h1 : leading_digits (v :: rest) = leadingDigitOf v :: leading_digits rest := by
            simp only [leading_digits]
            rw [if_neg hz, if_pos hr2]
            rfl
          have h2 : spec_leading_digits (v :: rest)
              = leadingDigitOf v :: spec_leading_digits rest := by
            simp only [spec_leading_digits, List.filterMap_cons]
            rw [if_neg hz, if_pos hr]
          rw [h1, h2, ih]
        · have hr2 : ¬(1 ≤ (⌊|v| / (10 : ℚ) ^ Int.log 10 |v|⌋).toNat ∧
              (⌊|v| / (10 : ℚ) ^ Int.log 10 |v|⌋).toNat ≤ 9) := by
            unfold leadingDigitOf at hr; exact hr
          have h1 : leading_digits (v :: rest) = leading_digits rest := by
            simp only [leading_digits]
            rw [if_neg hz, if_neg hr2]
          have h2 : spec_leading_digits (v :: rest) = spec_leading_digits rest := by
            simp only [spec_leading_digits, List.filterMap_cons]
            rw [if_neg hz, if_neg hr]
          rw [h1, h2]; exact ih
  · intro v _ hvz
    exact ⟨log10_bounds |v| (abs_pos.2 hvz), leadingDigitOf_range v hvz⟩

/-- C2 witness: the theorem applied to the concrete list `[5]`, with the
inner hypotheses discharged at `v = 5`. -/
theorem c2_witness :
    leading_digits [(5 : ℚ)] = spec_leading_digits [(5 : ℚ)] ∧
    ((10 : ℚ) ^ Int.log 10 |(5 : ℚ)| ≤ |(5 : ℚ)| ∧
      |(5 : ℚ)| < (10 : ℚ) ^ (Int.log 10 |(5 : ℚ)| + 1)) ∧
    1 ≤ leadingDigitOf 5 ∧ leadingDigitOf 5 ≤ 9 :=
  ⟨(c2_leading_digits [5]).1,
   (c2_leading_digits [5]).2 5 (List.mem_singleton.2 rfl) (by decide)⟩

/-- C9: the CellRef resolver reads the leading run of uppercase letters as
a base-26 numeral with digit values A=1..Z=26, accumulating
`result = result*26 + digit` left to right; `"A"`..`"Z"` give 1..26,
`"AA"` 27, `"AB"` 28, `"AZ"` 52, `"BA"` 53, and an address with no leading
letters gives 0. -/
theorem c9_colref :
    (∀ ref : String, column_index_from_ref ref
        = (ref.data.takeWhile isUpperAZ).foldl
            (fun r c => r * 26 + (c.toNat - 'A'.toNat + 1)) 0) ∧
    (∀ ref : String, ref.data.takeWhile isUpperAZ = [] → column_index_from_ref ref = 0) ∧
    ((List.range' 1 26).map
        (fun k => column_index_from_ref (String.mk [Char.ofNat (64 + k)]))
        = List.range' 1 26) ∧
    column_index_from_ref "AA" = 27 ∧ column_index_from_ref "AB" = 28 ∧
    column_index_from_ref "AZ" = 52 ∧ column_index_from_ref "BA" = 53 := by
  refine ⟨fun ref => rfl, fun ref h => ?_, by decide, by decide, by decide, by decide, by decide⟩
  simp [column_index_from_ref, h]

/-- C9 witness: the degenerate no-letter case discharged at the concrete
address `"123"`, together with one of the concrete values. -/
theorem c9_witness :
    column_index_from_ref "123" = 0 ∧ column_index_from_ref "BA" = 53 :=
  ⟨c9_colref.2.1 "123" (by decide), c9_colref.2.2.2.2.2.2⟩

/-- C4 counterexample: for the shared-string table `["Alpha", "Beta"]` and
raw index `"-1"` — an integer that is not a valid 0-based position of the
two-element table, hence "out of range" in the claim's sense — the decoder
returns `Text "Beta"` (Python negative indexing) where the claim demands
`Empty`. -/
theorem c4_counterexample :
    parse_cell_value ⟨"A1", some "s", none, some "-1"⟩ ["Alpha", "Beta"]
      = CellValue.Text "Beta" ∧ CellValue.Text "Beta" ≠ CellValue.Empty := by decide

/-- C4 (amended): for a cell typed as a shared-string reference, the
decoder returns `Text(table[i])` when the raw value parses as an integer
`i` with `0 ≤ i < len`; it ALSO returns the element counted from the end,
`Text(table[len + i])`, when `-len ≤ i < 0` (Python negative indexing);
and it returns `Empty` — never an exception — when the index is outside
`[-len, len)` or the raw value does not parse as an integer. -/
theorem c4_shared_decode (table : List String) (cell : XmlCell) (raw : String)
    (ht : cell.cellType = some "s") (hv : cell.valueText = some raw) :
    (pyInt raw = none → parse_cell_value cell table = CellValue.Empty) ∧
    ∀ i : ℤ, pyInt raw = some i →
      (∀ hl : i.toNat < table.length, 0 ≤ i →
          parse_cell_value cell table = CellValue.Text (table.get ⟨i.toNat, hl⟩)) ∧
      (0 ≤ i → (table.length : ℤ) ≤ i → parse_cell_value cell table = CellValue.Empty) ∧
      (∀ hl : (i + (table.length : ℤ)).toNat < table.length, i < 0 →
          0 ≤ i + (table.length : ℤ) →
          parse_cell_value cell table
            = CellValue.Text (table.get ⟨(i + (table.length : ℤ)).toNat, hl⟩)) ∧
      (i + (table.length : ℤ) < 0 → parse_cell_value cell table = CellValue.Empty) := by
  have hbase : parse_cell_value cell table
      = match pyInt raw with
        | none => CellValue.Empty
        | some i =>
          match pyIndex table i with
          | some s => CellValue.Text s
          | none => CellValue.Empty := by
    unfold parse_cell_value
    rw [ht, hv]
    rfl
  have hbnone : pyInt raw = none → parse_cell_value cell table = CellValue.Empty := by
    intro h; rw [hbase, h]
  have hbsome : ∀ i : ℤ, pyInt raw = some i → parse_cell_value cell table
      = match pyIndex table i with
        | some s => CellValue.Text s
        | none => CellValue.Empty := by
    intro i h; rw [hbase, h]
  refine ⟨hbnone, fun i hi => ?_⟩
  refine ⟨fun hl h0 => ?_, fun h0 hge => ?_, fun hl hneg h0 => ?_, fun hout => ?_⟩
  · rw [hbsome i hi]
    unfold pyIndex
    rw [if_pos h0, List.getElem?_eq_getElem hl]
    simp [List.get_eq_getElem]
  · rw [hbsome i hi]
    unfold pyIndex
    rw [if_pos h0]
    have hge2 : table.length ≤ i.toNat := by omega
    rw [List.getElem?_eq_none hge2]
  · rw [hbsome i hi]
    unfold pyIndex
    rw [if_neg (by omega), if_pos h0, List.getElem?_eq_getElem hl]
    simp [List.get_eq_getElem]
  · rw [hbsome i hi]
    unfold pyIndex
    rw [if_neg (by omega), if_neg (by omega)]

/-- C8: for every column, `benford_for_column` produces exactly nine rows,
one per digit 1..9 in order; each row carries the digit's occurrence count
and `observed = count / total` when the total count is positive, while a
column with no valid leading digits (total = 0) gets `observed = 0` on
every row — the guard, not a division by zero. -/
theorem c8_histogram (expd : ℕ → ℚ) (values : List ℚ) (label : String) :
    (benford_for_column expd values label).length = 9 ∧
    (benford_for_column expd values label).map DigitRow.digit = List.range' 1 9 ∧
    ∀ row ∈ benford_for_column expd values label,
      row.column = label ∧
      row.count = digitCount values row.digit ∧
      row.expected = expd row.digit ∧
      row.deviation = row.observed - expd row.digit ∧
      (totalCount values ≠ 0 →
        row.observed = (digitCount values row.digit : ℚ) / (totalCount values : ℚ)) ∧
      (totalCount values = 0 → row.observed = 0) := by
  refine ⟨by simp [benford_for_column], ?_, ?_⟩
  · rw [benford_for_column, List.map_map]
    exact (List.map_congr_left fun d _ => rfl).trans (List.map_id _)
  · intro row hrow
    obtain ⟨d, _, rfl⟩ := List.mem_map.1 hrow
    refine ⟨rfl, rfl, rfl, rfl, fun hne => ?_, fun h0 => ?_⟩
    · simp only [digitRowOf]
      rw [observedOf, if_pos hne]
    · simp only [digitRowOf]
      rw [observedOf, if_neg (by simp [h0])]

/-- C8 witness: the theorem applied to the empty column: nine rows, and
the digit-1 row's `observed` is 0 by the zero-total guard. -/
theorem c8_witness :
    (benford_for_column e0 [] "c").length = 9 ∧
    (digitRowOf e0 [] "c" 1).observed = 0 :=
  ⟨(c8_histogram e0 [] "c").1,
   ((c8_histogram e0 [] "c").2.2 (digitRowOf e0 [] "c" 1)
      (List.mem_map.2 ⟨1, by decide, rfl⟩)).2.2.2.2.2 (by decide)⟩

theorem foldl_max_le (x : ℚ) (xs : List ℚ) : ∀ y ∈ x :: xs, y ≤ xs.foldl max x := by
  induction xs generalizing x with
  | nil =>
    intro y hy
    rcases List.mem_singleton.1 hy with rfl
    exact le_refl _
  | cons z zs ih =>
    intro y hy
    rcases List.mem_cons.1 hy with rfl | hy2
    · exact le_trans (le_max_left y z) (ih (max y z) (max y z) (List.mem_cons_self _ _))
    · rcases List.mem_cons.1 hy2 with rfl | hy3
      · exact le_trans (le_max_right x y) (ih (max x y) (max x y) (List.mem_cons_self _ _))
      · exact ih (max x z) y (List.mem_cons_of_mem _ hy3)

theorem foldl_max_mem (x : ℚ) (xs : List ℚ) : xs.foldl max x ∈ x :: xs := by
  induction xs generalizing x with
  | nil => exact List.mem_singleton.2 rfl
  | cons z zs ih =>
    have h := ih (max x z)
    rcases List.mem_cons.1 h with heq | hmem
    · rcases max_choice x z with hx | hz
      · exact List.mem_cons.2 (Or.inl (heq.trans hx))
      · exact List.mem_cons_of_mem _ (List.mem_cons.2 (Or.inl (heq.trans hz)))
    · exact List.mem_cons_of_mem _ (List.mem_cons_of_mem _ hmem)

theorem pyMaxQ_mem (x : ℚ) (xs : List ℚ) : pyMaxQ (x :: xs) ∈ x :: xs :=
  foldl_max_mem x xs

theorem pyMaxQ_le (x : ℚ) (xs : List ℚ) : ∀ y ∈ x :: xs, y ≤ pyMaxQ (x :: xs) :=
  foldl_max_le x xs

theorem maxByKeyAux_cases {α : Type} (key : α → ℚ) :
    ∀ (ys : List α) (best : α),
      (maxByKeyAux key best ys = best ∧ ∀ y ∈ ys, key y ≤ key best) ∨
      (∃ l₁ l₂, ys = l₁ ++ maxByKeyAux key best ys :: l₂ ∧
        key best < key (maxByKeyAux key best ys) ∧
        (∀ a ∈ l₁, key a < key (maxByKeyAux key best ys)) ∧
        (∀ a ∈ l₂, key a ≤ key (maxByKeyAux key best ys))) := by
  intro ys
  induction ys with
  | nil => intro best; left; exact ⟨rfl, by simp⟩
  | cons y ys ih =>
    intro best
    by_cases hc : key best < key y
    · have hstep : maxByKeyAux key best (y :: ys) = maxByKeyAux key y ys := by
        simp [maxByKeyAux, hc]
      rcases ih y with ⟨heq, hall⟩ | ⟨l₁, l₂, hys, hlt, hl₁, hl₂⟩
      · right
        refine ⟨[], ys, ?_, ?_, by simp, ?_⟩
        · rw [hstep, heq]; rfl
        · rw [hstep, heq]; exact hc
        · intro a ha; rw [hstep, heq]; exact hall a ha
      · right
        refine ⟨y :: l₁, l₂, ?_, ?_, ?_, ?_⟩
        · rw [hstep]; exact congrArg (List.cons y) hys
        · rw [hstep]; exact lt_trans hc hlt
        · intro a ha
          rw [hstep]
          rcases List.mem_cons.1 ha with rfl | h2
          · exact hlt
          · exact hl₁ a h2
        · intro a ha; rw [hstep]; exact hl₂ a ha
    · have hstep : maxByKeyAux key best (y :: ys) = maxByKeyAux key best ys := by
        simp [maxByKeyAux, hc]
      rcases ih best with ⟨heq, hall⟩ | ⟨l₁, l₂, hys, hlt, hl₁, hl₂⟩
      · left
        refine ⟨by rw [hstep, heq], ?_⟩
        intro a ha
        rcases List.mem_cons.1 ha with rfl | h2
        · exact le_of_not_lt hc
        · exact hall a h2
      · right
        refine ⟨y :: l₁, l₂, ?_, ?_, ?_, ?_⟩
        · rw [hstep]; exact congrArg (List.cons y) hys
        · rw [hstep]; exact hlt
        · intro a ha
          rw [hstep]
          rcases List.mem_cons.1 ha with rfl | h2
          · exact lt_of_le_of_lt (le_of_not_lt hc) hlt
          · exact hl₁ a h2
        · intro a ha; rw [hstep]; exact hl₂ a ha

theorem maxByKeyAux_digits (key : DigitRow → ℚ) (g : ℕ → DigitRow) (s n : ℕ) :
    ∃ t, s ≤ t ∧ t ≤ s + n ∧
      maxByKeyAux key (g s) ((List.range' (s + 1) n).map g) = g t ∧
      (∀ d, s ≤ d → d ≤ s + n → key (g d) ≤ key (g t)) ∧
      (∀ d, s ≤ d → d < t → key (g d) < key (g t)) := by
  have hmemg : ∀ d, s + 1 ≤ d → d ≤ s + n → g d ∈ (List.range' (s + 1) n).map g := by
    intro d h1 h2
    exact List.mem_map_of_mem g (List.mem_range'.2 ⟨d - (s + 1), by omega, by omega⟩)
  rcases maxByKeyAux_cases key ((List.range' (s + 1) n).map g) (g s) with
    ⟨heq, hall⟩ | ⟨l₁, l₂, hys, hlt, hl₁, hl₂⟩
  · refine ⟨s, le_refl s, by omega, heq, ?_, ?_⟩
    · intro d hsd hdn
      rcases eq_or_lt_of_le hsd with rfl | hlt2
      · exact le_refl _
      · exact hall (g d) (hmemg d (by omega) hdn)
    · intro d hsd hdt
      omega
  · set r := maxByKeyAux key (g s) ((List.range' (s + 1) n).map g) with hr
    have hlen : ((List.range' (s + 1) n).map g).length = n := by simp
    have hl₁len : l₁.length < n := by
      have hh := congrArg List.length hys
      simp at hh
      omega
    have hget1 : ((List.range' (s + 1) n).map g)[l₁.length]? = some r := by
      rw [hys, List.getElem?_append_right (le_refl _), Nat.sub_self]
      simp
    have hget2 : ∀ j, j < n → ((List.range' (s + 1) n).map g)[j]? = some (g (s + 1 + j)) := by
      intro j hj
      rw [List.getElem?_eq_getElem (by omega)]
      simp
    have hrg : r = g (s + 1 + l₁.length) := by
      have := hget1.symm.trans (hget2 l₁.length hl₁len)
      exact Option.some.inj this
    refine ⟨s + 1 + l₁.length, by omega, by omega, hrg ▸ hr.symm ▸ rfl, ?_, ?_⟩
    · intro d hsd hdn
      rw [← hrg]
      rcases eq_or_lt_of_le hsd with rfl | hlt2
      · exact le_of_lt hlt
      · have hmem : g d ∈ l₁ ++ r :: l₂ := hys ▸ hmemg d (by omega) hdn
        rcases List.mem_append.1 hmem with h1 | h2
        · exact le_of_lt (hl₁ _ h1)
        · rcases List.mem_cons.1 h2 with heq2 | h3
          · rw [heq2]
          · exact hl₂ _ h3
    · intro d hsd hdt
      rw [← hrg]
      rcases eq_or_lt_of_le hsd with rfl | hlt2
      · exact hlt
      · have hj : d - (s + 1) < l₁.length := by omega
        have hd1 : ((List.range' (s + 1) n).map g)[d - (s + 1)]? = some (g d) := by
          rw [hget2 (d - (s + 1)) (by omega)]
          congr 2
          omega
        have hd2 : ((List.range' (s + 1) n).map g)[d - (s + 1)]? = l₁[d - (s + 1)]? := by
          rw [hys, List.getElem?_append, if_pos hj]
        have hmem : g d ∈ l₁ := by
          obtain ⟨hlt3, hEq⟩ := List.getElem?_eq_some.1 (hd2.symm.trans hd1)
          exact hEq ▸ List.getElem_mem hlt3
        exact hl₁ _ hmem

theorem benford_eq_map (expd : ℕ → ℚ) (values : List ℚ) (label : String) :
    benford_for_column expd values label
      = (List.range' 1 9).map (digitRowOf expd values label) := rfl

theorem filter_own_label (expd : ℕ → ℚ) (values : List ℚ) (label : String) :
    (benford_for_column expd values label).filter (fun r => r.column == label)
      = benford_for_column expd values label := by
  apply List.filter_eq_self.2
  intro r hr
  obtain ⟨d, _, rfl⟩ := List.mem_map.1 hr
  exact beq_self_eq_true label

theorem filter_other_label (expd : ℕ → ℚ) (values : List ℚ) (label other : String)
    (hne : label ≠ other) :
    (benford_for_column expd values label).filter (fun r => r.column == other) = [] := by
  apply List.filter_eq_nil_iff.2
  intro r hr
  obtain ⟨d, _, rfl⟩ := List.mem_map.1 hr
  simp [digitRowOf, hne]

theorem filter_detail (expd : ℕ → ℚ) :
    ∀ (columns : List (String × List ℚ)), (columns.map Prod.fst).Nodup →
      ∀ label vs, (label, vs) ∈ columns →
        (columns.flatMap fun p => benford_for_column expd p.2 p.1).filter
            (fun r => r.column == label)
          = benford_for_column expd vs label := by
  intro columns
  induction columns with
  | nil => intro _ label vs h; cases h
  | cons p rest ih =>
    obtain ⟨l₀, v₀⟩ := p
    intro hnd label vs hmem
    have hnd2 := List.nodup_cons.1 hnd
    rw [List.flatMap_cons, List.filter_append]
    rcases List.mem_cons.1 hmem with heq | htail
    · injection heq with h1 h2
      subst h1
      subst h2
      rw [filter_own_label]
      have hrest : (rest.flatMap fun p => benford_for_column expd p.2 p.1).filter
          (fun r => r.column == label) = [] := by
        apply List.filter_eq_nil_iff.2
        intro r hr
        obtain ⟨q, hq, hrq⟩ := List.mem_flatMap.1 hr
        obtain ⟨d, _, rfl⟩ := List.mem_map.1 hrq
        have : q.1 ∈ rest.map Prod.fst := List.mem_map_of_mem Prod.fst hq
        simp [digitRowOf]
        intro hcol
        exact hnd2.1 (hcol ▸ this)
      rw [hrest, List.append_nil]
    · have hkey : label ∈ rest.map Prod.fst := by
        have := List.mem_map_of_mem Prod.fst htail
        simpa using this
      have hne : l₀ ≠ label := fun h => hnd2.1 (h ▸ hkey)
      rw [filter_other_label expd v₀ l₀ label hne, List.nil_append]
      exact ih hnd2.2 label vs htail

set_option maxRecDepth 8192

theorem summaryFor_spec (expd : ℕ → ℚ) (values : List ℚ) (label : String)
    (digit_detail : List DigitRow)
    (hfil : digit_detail.filter (fun r => r.column == label)
        = benford_for_column expd values label) :
    (summaryFor digit_detail label).column = label ∧
    (summaryFor digit_detail label).mad
      = ((List.range' 1 9).map (absDev expd values)).sum / 9 ∧
    ((summaryFor digit_detail label).max_abs_deviation
        ∈ (List.range' 1 9).map (absDev expd values) ∧
      ∀ d ∈ List.range' 1 9,
        absDev expd values d ≤ (summaryFor digit_detail label).max_abs_deviation) ∧
    ((summaryFor digit_detail label).top_deviation_digit ∈ List.range' 1 9 ∧
      absDev expd values (summaryFor digit_detail label).top_deviation_digit
        = (summaryFor digit_detail label).max_abs_deviation ∧
      ∀ d ∈ List.range' 1 9, d < (summaryFor digit_detail label).top_deviation_digit →
        absDev expd values d < (summaryFor digit_detail label).max_abs_deviation) := by
  have hrows : digit_detail.filter (fun r => r.column == label)
      = (List.range' 1 9).map (digitRowOf expd values label) := hfil
  have hS : summaryFor digit_detail label =
      ⟨label,
        (((List.range' 1 9).map (digitRowOf expd values label)).map DigitRow.count).sum,
        ((List.range' 1 9).map (absDev expd values)).sum
          / ((((List.range' 1 9).map (absDev expd values)).length : ℕ) : ℚ),
        pyMaxQ ((List.range' 1 9).map (absDev expd values)),
        (maxByKeyAux (fun r => |r.deviation|) (digitRowOf expd values label 1)
          ((List.range' 2 8).map (digitRowOf expd values label))).digit⟩ := by
    unfold summaryFor
    rw [hrows]
    rfl
  obtain ⟨t, ht1, ht9, hmax, hallle, hstrict⟩ :=
    maxByKeyAux_digits (fun r => |r.deviation|) (digitRowOf expd values label) 1 8
  have htop : (summaryFor digit_detail label).top_deviation_digit = t := by
    rw [hS]
    exact congrArg DigitRow.digit hmax
  have hmaxIs : (summaryFor digit_detail label).max_abs_deviation
      = pyMaxQ ((List.range' 1 9).map (absDev expd values)) := by rw [hS]
  have hconsD : (List.range' 1 9).map (absDev expd values)
      = absDev expd values 1 :: (List.range' 2 8).map (absDev expd values) := rfl
  have hmem_absDev : ∀ d ∈ List.range' 1 9,
      absDev expd values d ∈ (List.range' 1 9).map (absDev expd values) := fun d hd =>
    List.mem_map_of_mem _ hd
  have hboundsd : ∀ d ∈ List.range' 1 9, 1 ≤ d ∧ d ≤ 9 := by
    intro d hd
    obtain ⟨i, hi, rfl⟩ := List.mem_range'.1 hd
    omega
  have hmaxle : ∀ d ∈ List.range' 1 9,
      absDev expd values d ≤ (summaryFor digit_detail label).max_abs_deviation := by
    intro d hd
    rw [hmaxIs]
    have := pyMaxQ_le (absDev expd values 1) ((List.range' 2 8).map (absDev expd values))
      (absDev expd values d) (hconsD ▸ hmem_absDev d hd)
    exact hconsD ▸ this
  have habs : absDev expd values t = (summaryFor digit_detail label).max_abs_deviation := by
    apply le_antisymm
    · exact hmaxle t (List.mem_range'.2 ⟨t - 1, by omega, by omega⟩)
    · rw [hmaxIs]
      have hm := pyMaxQ_mem (absDev expd values 1) ((List.range' 2 8).map (absDev expd values))
      have hm2 : pyMaxQ ((List.range' 1 9).map (absDev expd values))
          ∈ (List.range' 1 9).map (absDev expd values) := hconsD ▸ hm
      obtain ⟨d2, hd2, hEq2⟩ := List.mem_map.1 hm2
      obtain ⟨h1d2, h9d2⟩ := hboundsd d2 hd2
      rw [← hEq2]
      exact hallle d2 h1d2 (by omega)
  refine ⟨by rw [hS], ?_, ⟨?_, hmaxle⟩, ?_, ?_, ?_⟩
  · rw [hS]
    norm_num
  · rw [hmaxIs]
    have := pyMaxQ_mem (absDev expd values 1) ((List.range' 2 8).map (absDev expd values))
    exact hconsD ▸ this
  · rw [htop]
    refine List.mem_range'.2 ⟨t - 1, by omega, by omega⟩
  · rw [htop]
    exact habs
  · intro d hd hdt
    rw [htop] at hdt
    obtain ⟨h1d, h9d⟩ := hboundsd d hd
    have hlt := hstrict d h1d hdt
    rw [← habs]
    exact hlt

/-- C1: every summary row of `summarize_benford` carries
`mad` = the mean over digits 1..9 of `|observed − expected|`,
`max_abs_deviation` = the maximum of those nine deviations, and
`top_deviation_digit` = the digit attaining it with ties broken in favour
of the lowest digit; the summary sequence is sorted by descending MAD.
The hypothesis that the column labels are distinct models the Python
`dict`, whose keys are necessarily unique. -/
theorem c1_summary (expd : ℕ → ℚ) (columns : List (String × List ℚ))
    (hnd : (columns.map Prod.fst).Nodup) :
    List.Sorted madGe (summarize_benford expd columns).1 ∧
    ∀ row ∈ (summarize_benford expd columns).1, ∃ vs, (row.column, vs) ∈ columns ∧
      row.mad = ((List.range' 1 9).map (absDev expd vs)).sum / 9 ∧
      (row.max_abs_deviation ∈ (List.range' 1 9).map (absDev expd vs) ∧
        ∀ d ∈ List.range' 1 9, absDev expd vs d ≤ row.max_abs_deviation) ∧
      (row.top_deviation_digit ∈ List.range' 1 9 ∧
        absDev expd vs row.top_deviation_digit = row.max_abs_deviation ∧
        ∀ d ∈ List.range' 1 9, d < row.top_deviation_digit →
          absDev expd vs d < row.max_abs_deviation) := by
  constructor
  · exact List.sorted_insertionSort madGe _
  · intro row hrow
    have hperm := List.perm_insertionSort madGe
      (columns.map fun p => summaryFor
        (columns.flatMap fun q => benford_for_column expd q.2 q.1) p.1)
    have hrow2 : row ∈ columns.map fun p => summaryFor
        (columns.flatMap fun q => benford_for_column expd q.2 q.1) p.1 :=
      hperm.subset hrow
    obtain ⟨p, hp, rfl⟩ := List.mem_map.1 hrow2
    obtain ⟨l₀, v₀⟩ := p
    have hfil := filter_detail expd columns hnd l₀ v₀ hp
    have hspec := summaryFor_spec expd v₀ l₀ _ hfil
    refine ⟨v₀, ?_, hspec.2.1, hspec.2.2.1, hspec.2.2.2⟩
    rw [hspec.1]
    exact hp

/-- C1 witness: the theorem applied to a concrete one-column mapping, with
the distinct-labels hypothesis discharged there. -/
theorem c1_witness : List.Sorted madGe (summarize_benford e0 [("A", [])]).1 :=
  (c1_summary e0 [("A", [])] (by decide)).1

theorem pyDictKeys_mem_aux (l : List String) :
    ∀ acc a, (a ∈ l.foldl (fun acc h => if h ∈ acc then acc else acc ++ [h]) acc)
      ↔ (a ∈ acc ∨ a ∈ l) := by
  induction l with
  | nil => intro acc a; simp
  | cons h t ih =>
    intro acc a
    have hstep : (h :: t).foldl (fun acc h => if h ∈ acc then acc else acc ++ [h]) acc
        = t.foldl (fun acc h => if h ∈ acc then acc else acc ++ [h])
            (if h ∈ acc then acc else acc ++ [h]) := rfl
    rw [hstep, ih]
    by_cases hm : h ∈ acc
    · simp only [if_pos hm, List.mem_cons]
      constructor
      · rintro (h1 | h1)
        · exact Or.inl h1
        · exact Or.inr (Or.inr h1)
      · rintro (h1 | h1 | h1)
        · exact Or.inl h1
        · exact Or.inl (h1 ▸ hm)
        · exact Or.inr h1
    · simp only [if_neg hm, List.mem_append, List.mem_singleton, List.mem_cons]
      tauto

theorem pyDictKeys_mem (l : List String) (a : String) : a ∈ pyDictKeys l ↔ a ∈ l := by
  unfold pyDictKeys
  rw [pyDictKeys_mem_aux l [] a]
  simp

theorem pyDictKeys_nodup_aux (l : List String) :
    ∀ acc : List String, acc.Nodup →
      (l.foldl (fun acc h => if h ∈ acc then acc else acc ++ [h]) acc).Nodup := by
  induction l with
  | nil => intro acc h; exact h
  | cons h t ih =>
    intro acc hacc
    by_cases hm : h ∈ acc
    · have hstep : (h :: t).foldl (fun acc h => if h ∈ acc then acc else acc ++ [h]) acc
          = t.foldl (fun acc h => if h ∈ acc then acc else acc ++ [h]) acc := by
        show t.foldl _ (if h ∈ acc then acc else acc ++ [h]) = _
        rw [if_pos hm]
      rw [hstep]
      exact ih acc hacc
    · have hstep : (h :: t).foldl (fun acc h => if h ∈ acc then acc else acc ++ [h]) acc
          = t.foldl (fun acc h => if h ∈ acc then acc else acc ++ [h]) (acc ++ [h]) := by
        show t.foldl _ (if h ∈ acc then acc else acc ++ [h]) = _
        rw [if_neg hm]
      rw [hstep]
      apply ih
      rw [List.nodup_append]
      exact ⟨hacc, List.nodup_singleton h, by simpa using hm⟩

theorem pyDictKeys_nodup (l : List String) : (pyDictKeys l).Nodup :=
  pyDictKeys_nodup_aux l [] List.nodup_nil

theorem processPairs_eq (keys : List String) (pairs : List (String × CellValue)) :
    ∀ f : String → List ℚ,
      pairs.foldl processPair (keys.map fun h => (h, f h))
        = keys.map fun h => (h, f h ++ rowContribution h pairs) := by
  induction pairs with
  | nil =>
    intro f
    simp [rowContribution]
  | cons p ps ih =>
    intro f
    have hstep : List.foldl processPair (keys.map fun h => (h, f h)) (p :: ps)
        = List.foldl processPair (processPair (keys.map fun h => (h, f h)) p) ps := rfl
    rw [hstep]
    cases hq : parse_numeric p.2 with
    | none =>
      have h1 : processPair (keys.map fun h => (h, f h)) p = keys.map fun h => (h, f h) := by
        simp [processPair, hq]
      rw [h1, ih f]
      apply List.map_congr_left
      intro h _
      by_cases hph : p.1 = h
      · simp [rowContribution, List.filterMap_cons, hph, hq]
      · simp [rowContribution, List.filterMap_cons, hph, hq]
    | some q =>
      have h1 : processPair (keys.map fun h => (h, f h)) p
          = keys.map fun h => (h, if h = p.1 then f h ++ [q] else f h) := by
        simp only [processPair, hq, appendAt, List.map_map]
        apply List.map_congr_left
        intro h _
        by_cases hph : h = p.1
        · simp [Function.comp, hph]
        · simp [Function.comp, hph]
      rw [h1, ih (fun h => if h = p.1 then f h ++ [q] else f h)]
      apply List.map_congr_left
      intro h _
      by_cases hph : h = p.1
      · subst hph
        simp [rowContribution, List.filterMap_cons, hq, List.append_assoc]
      · have hph2 : ¬ p.1 = h := fun hh => hph hh.symm
        simp [rowContribution, List.filterMap_cons, hph, hph2, hq]

theorem gatherRows_eq (headers keys : List String) :
    ∀ (rows : List (List CellValue)) (f : String → List ℚ),
      rows.foldl (fun c row => (headers.zip row).foldl processPair c)
          (keys.map fun h => (h, f h))
        = keys.map fun h =>
            (h, f h ++ rows.flatMap fun row => rowContribution h (headers.zip row)) := by
  intro rows
  induction rows with
  | nil => intro f; simp
  | cons row rest ih =>
    intro f
    have hstep : List.foldl (fun c row => (headers.zip row).foldl processPair c)
          (keys.map fun h => (h, f h)) (row :: rest)
        = List.foldl (fun c row => (headers.zip row).foldl processPair c)
            ((headers.zip row).foldl processPair (keys.map fun h => (h, f h))) rest := rfl
    rw [hstep, processPairs_eq keys (headers.zip row) f,
      ih (fun h => f h ++ rowContribution h (headers.zip row))]
    apply List.map_congr_left
    intro h _
    simp [List.append_assoc]

theorem numeric_columns_eq (sheet : SheetData) :
    numeric_columns sheet
      = ((pyDictKeys sheet.headers).map fun h => (h, columnValues sheet h)).filter
          fun p => !p.2.isEmpty && !is_date_like_column p.1 p.2 := by
  unfold numeric_columns
  have hinit : initCols sheet.headers
      = (pyDictKeys sheet.headers).map fun h => (h, (fun _ : String => ([] : List ℚ)) h) := rfl
  rw [hinit, gatherRows_eq sheet.headers (pyDictKeys sheet.headers) sheet.rows fun _ => []]
  rfl

theorem isLeadOf_iff (pat : List Char) :
    ∀ l, isLeadOf pat l = true ↔ ∃ t, l = pat ++ t := by
  induction pat with
  | nil => intro l; simp [isLeadOf]
  | cons a as ih =>
    intro l
    cases l with
    | nil => simp [isLeadOf]
    | cons b bs =>
      simp only [isLeadOf, Bool.and_eq_true, beq_iff_eq]
      constructor
      · rintro ⟨rfl, h2⟩
        obtain ⟨t, rfl⟩ := (ih bs).1 h2
        exact ⟨t, rfl⟩
      · rintro ⟨t, ht⟩
        injection ht with h1 h2
        exact ⟨h1.symm, (ih bs).2 ⟨t, h2⟩⟩

theorem containsSub_iff (pat : List Char) :
    ∀ l, containsSub pat l = true ↔ ∃ l₁ l₂, l = l₁ ++ pat ++ l₂ := by
  intro l
  induction l with
  | nil =>
    simp only [containsSub, List.isEmpty_iff]
    constructor
    · rintro rfl; exact ⟨[], [], rfl⟩
    · rintro ⟨l₁, l₂, h⟩
      rcases List.append_eq_nil.1 (List.append_eq_nil.1 h.symm).1 with ⟨_, h2⟩
      exact h2
  | cons c t ih =>
    simp only [containsSub, Bool.or_eq_true]
    constructor
    · rintro (h | h)
      · obtain ⟨s, hs⟩ := (isLeadOf_iff pat (c :: t)).1 h
        exact ⟨[], s, by simp [hs]⟩
      · obtain ⟨l₁, l₂, rfl⟩ := ih.1 h
        exact ⟨c :: l₁, l₂, rfl⟩
    · rintro ⟨l₁, l₂, hEq⟩
      cases l₁ with
      | nil =>
        left
        exact (isLeadOf_iff pat (c :: t)).2 ⟨l₂, by simpa using hEq⟩
      | cons x xs =>
        right
        apply ih.2
        rw [List.cons_append, List.cons_append] at hEq
        injection hEq with h1 h2
        exact ⟨xs, l₂, by simpa using h2⟩

theorem nearInteger_iff (v : ℚ) : (|v - (round v : ℤ)| < 1 / 100) ↔ NearInteger v := by
  constructor
  · intro h; exact ⟨round v, h⟩
  · rintro ⟨n, hn⟩
    have habs := abs_lt.1 hn
    have hr : round v = n := by
      rw [round_eq]
      apply Int.floor_eq_iff.2
      constructor
      · linarith [habs.1, habs.2]
      · linarith [habs.1, habs.2]
    rw [hr]; exact hn

theorem isDateSerial_iff (v : ℚ) :
    isDateSerial v = true ↔ (20000 ≤ v ∧ v ≤ 60000 ∧ NearInteger v) := by
  unfold isDateSerial
  simp only [Bool.and_eq_true, decide_eq_true_eq]
  constructor
  · rintro ⟨⟨h1, h2⟩, h3⟩
    exact ⟨h1, h2, (nearInteger_iff v).1 h3⟩
  · rintro ⟨h1, h2, h3⟩
    exact ⟨⟨h1, h2⟩, (nearInteger_iff v).2 h3⟩

theorem ratio_iff (vs : List ℚ) (hne : vs ≠ []) :
    ((4 : ℚ) / 5 ≤ ((vs.filter isDateSerial).length : ℚ) / (vs.length : ℚ))
      ↔ DateRatioHigh vs := by
  have hlen : (0 : ℚ) < (vs.length : ℚ) := by
    have := List.length_pos.2 hne
    exact_mod_cast this
  unfold DateRatioHigh
  rw [le_div_iff₀ hlen]

theorem is_date_like_iff (h : String) (vs : List ℚ) (hne : vs ≠ []) :
    is_date_like_column h vs = true ↔ (HeaderMentionsDate h ∨ DateRatioHigh vs) := by
  unfold is_date_like_column
  by_cases hc : containsSub "date".data (lowerStr h).data = true
  · rw [if_pos hc]
    simp only [true_iff]
    exact Or.inl ((containsSub_iff "date".data (lowerStr h).data).1 hc)
  · rw [if_neg hc, if_neg (by simpa [List.isEmpty_iff] using hne)]
    rw [decide_eq_true_eq, ratio_iff vs hne]
    constructor
    · exact Or.inr
    · rintro (hd | hd)
      · exact absurd ((containsSub_iff "date".data (lowerStr h).data).2 hd) hc
      · exact hd

/-- C3: a column is dropped from the numeric set exactly when (a) its
header contains the substring `date` case-insensitively, or (b) at least
80% of its parsed values lie in `[20000, 60000]` within 0.01 of an
integer, or (c) it has no parsed values; every other column with at least
one parsed value appears in the result.  The second conjunct grounds the
serial-date test in the claim's wording. -/
theorem c3_classifier (sheet : SheetData) (h : String) (hh : h ∈ sheet.headers) :
    ((∃ p ∈ numeric_columns sheet, p.1 = h) ↔
      ¬(HeaderMentionsDate h ∨ DateRatioHigh (columnValues sheet h) ∨
        columnValues sheet h = [])) ∧
    ∀ v : ℚ, isDateSerial v = true ↔ (20000 ≤ v ∧ v ≤ 60000 ∧ NearInteger v) := by
  refine ⟨?_, isDateSerial_iff⟩
  rw [numeric_columns_eq]
  constructor
  · rintro ⟨p, hp, hp1⟩
    have hpm := List.mem_of_mem_filter hp
    have hpf := List.of_mem_filter hp
    obtain ⟨k, _, rfl⟩ := List.mem_map.1 hpm
    rcases Bool.and_eq_true .. ▸ hpf with ⟨hpe, hpd⟩
    have hk : k = h := hp1
    subst hk
    have hne : columnValues sheet k ≠ [] := by
      intro hcv
      rw [hcv] at hpe
      simp at hpe
    have hnd : is_date_like_column k (columnValues sheet k) ≠ true := by
      simp only [Bool.not_eq_true'] at hpd
      simp [hpd]
    rintro (hd | hd | hd)
    · exact hnd ((is_date_like_iff k (columnValues sheet k) hne).2 (Or.inl hd))
    · exact hnd ((is_date_like_iff k (columnValues sheet k) hne).2 (Or.inr hd))
    · exact hne hd
  · intro hnot
    push_neg at hnot
    obtain ⟨hd1, hd2, hd3⟩ := hnot
    refine ⟨(h, columnValues sheet h), ?_, rfl⟩
    apply List.mem_filter.2
    refine ⟨List.mem_map_of_mem _ ((pyDictKeys_mem sheet.headers h).2 hh), ?_⟩
    have hb1 : (columnValues sheet h).isEmpty = false := by
      simpa [List.isEmpty_iff] using hd3
    have hb2 : is_date_like_column h (columnValues sheet h) = false := by
      rcases Bool.eq_false_or_eq_true (is_date_like_column h (columnValues sheet h)) with hb | hb
      · rcases (is_date_like_iff h (columnValues sheet h) hd3).1 hb with hx | hx
        · exact absurd hx hd1
        · exact absurd hx hd2
      · exact hb
    rw [hb1, hb2]
    rfl

/-- C3 witness: the classifier membership characterisation at a concrete
one-column sheet whose header `"Amount"` is present. -/
theorem c3_witness :
    (∃ p ∈ numeric_columns sheetA, p.1 = "Amount") ↔
      ¬(HeaderMentionsDate "Amount" ∨ DateRatioHigh (columnValues sheetA "Amount") ∨
        columnValues sheetA "Amount" = []) :=
  (c3_classifier sheetA "Amount" (by decide)).1

theorem numeric_sheetX : numeric_columns sheetX = [("X", [1, 2, 3])] := by
  rw [numeric_columns_eq]
  have hmap : (pyDictKeys sheetX.headers).map (fun h => (h, columnValues sheetX h))
      = [("X", ([1, 2, 3] : List ℚ))] := by
    have h1 : pyDictKeys sheetX.headers = ["X"] := by decide
    have h2 : columnValues sheetX "X" = [1, 2, 3] := by decide
    rw [h1]
    simp [h2]
  rw [hmap]
  have hf : (([1, 2, 3] : List ℚ).filter isDateSerial) = [] := by decide
  have hdl : is_date_like_column "X" [1, 2, 3] = false := by
    unfold is_date_like_column
    rw [if_neg (by decide : ¬ containsSub "date".data (lowerStr "X").data = true)]
    rw [if_neg (by decide : ¬ (([1, 2, 3] : List ℚ).isEmpty = true))]
    apply decide_eq_false
    rw [hf]
    intro hcon
    norm_num at hcon
  simp [List.filter, hdl]

/-- C10: for every sheet — duplicate headers included — the classifier
reports at most one entry per header string, and that entry's value list
is the parsed numeric values of all identically-named physical columns
merged in row-major order. -/
theorem c10_duplicate_headers (sheet : SheetData) :
    ((numeric_columns sheet).map Prod.fst).Nodup ∧
    ∀ h vs, (h, vs) ∈ numeric_columns sheet → vs = columnValues sheet h := by
  constructor
  · rw [numeric_columns_eq]
    have hkeys : (pyDictKeys sheet.headers).Nodup := pyDictKeys_nodup _
    have hsub : List.Sublist
        ((((pyDictKeys sheet.headers).map
          fun h => (h, columnValues sheet h)).filter
            fun p => !p.2.isEmpty && !is_date_like_column p.1 p.2).map Prod.fst)
        (((pyDictKeys sheet.headers).map fun h => (h, columnValues sheet h)).map Prod.fst) :=
      (List.filter_sublist _).map Prod.fst
    have hfst : ((pyDictKeys sheet.headers).map
        fun h => (h, columnValues sheet h)).map Prod.fst = pyDictKeys sheet.headers := by
      rw [List.map_map]
      exact (List.map_congr_left fun k _ => rfl).trans (List.map_id _)
    exact ((hfst ▸ hsub).nodup hkeys)
  · intro h vs hmem
    rw [numeric_columns_eq] at hmem
    obtain ⟨k, _, hEq⟩ := List.mem_map.1 (List.mem_of_mem_filter hmem)
    injection hEq with h1 h2
    rw [← h2, h1]

/-- C10 witness: on the concrete duplicate-header sheet, the single
reported entry for `"X"` merges both physical columns in row-major
order. -/
theorem c10_witness :
    ((numeric_columns sheetX).map Prod.fst).Nodup ∧
    ([1, 2, 3] : List ℚ) = columnValues sheetX "X" :=
  ⟨(c10_duplicate_headers sheetX).1,
   (c10_duplicate_headers sheetX).2 "X" [1, 2, 3]
     (by rw [numeric_sheetX]; exact List.mem_singleton.2 rfl)⟩

theorem lookup_filter_self {κ α : Type} [BEq κ] [LawfulBEq κ] (l : List (κ × α)) (k : κ) :
    (l.filter fun p => !(p.1 == k)).lookup k = none := by
  induction l with
  | nil => rfl
  | cons p ps ih =>
    by_cases hpk : p.1 = k
    · simp [List.filter_cons, hpk, ih]
    · have h1 : (p.1 == k) = false := beq_eq_false_iff_ne.2 hpk
      have h2 : (k == p.1) = false := beq_eq_false_iff_ne.2 (Ne.symm hpk)
      simp [List.filter_cons, h1, List.lookup, h2, ih]

theorem lookup_filter_ne {κ α : Type} [BEq κ] [LawfulBEq κ] (l : List (κ × α)) (k k2 : κ)
    (hne : ¬ k = k2) : (l.filter fun p => !(p.1 == k2)).lookup k = l.lookup k := by
  induction l with
  | nil => rfl
  | cons p ps ih =>
    by_cases hpk : p.1 = k2
    · have h1 : (p.1 == k2) = true := beq_iff_eq.2 hpk
      have h2 : (k == p.1) = false := beq_eq_false_iff_ne.2 (hpk ▸ hne)
      simp [List.filter_cons, h1, List.lookup, h2, ih]
    · have h1 : (p.1 == k2) = false := beq_eq_false_iff_ne.2 hpk
      by_cases hkp : k = p.1
      · have h2 : (k == p.1) = true := beq_iff_eq.2 hkp
        simp [List.filter_cons, h1, List.lookup, h2]
      · have h2 : (k == p.1) = false := beq_eq_false_iff_ne.2 hkp
        simp [List.filter_cons, h1, List.lookup, h2, ih]

theorem ScanState_rows_mk (a : List (ℤ × List (ℕ × CellValue))) (b : ℕ) :
    (ScanState.mk a b).rows = a := rfl

theorem lookup_dinsert {κ α : Type} [BEq κ] [LawfulBEq κ] [DecidableEq κ]
    (l : List (κ × α)) (k k2 : κ) (v : α) :
    (dinsert l k2 v).lookup k = if k = k2 then some v else l.lookup k := by
  unfold dinsert
  by_cases h : k = k2
  · subst h
    rw [if_pos rfl, List.lookup_append, lookup_filter_self l k]
    simp [List.lookup]
  · rw [if_neg h, List.lookup_append, lookup_filter_ne l k k2 h]
    have h2 : (k == k2) = false := beq_eq_false_iff_ne.2 h
    cases hl : l.lookup k with
    | some b => rfl
    | none => simp [List.lookup, h2]

theorem scanRow_none (shared : List String) (st : ScanState) (row : XmlRow)
    (h : pyInt (row.rAttr.getD "0") = none) :
    scanRow shared st row = Except.error LoadError.RowIndexError := by
  unfold scanRow
  rw [h]

theorem scanRow_some (shared : List String) (st : ScanState) (row : XmlRow) (i : ℤ)
    (h : pyInt (row.rAttr.getD "0") = some i) :
    scanRow shared st row = Except.ok
      ⟨if i = 0 then st.rows
        else dinsert st.rows i (row.cells.foldl (scanCell shared) ([], st.maxCol)).1,
       (row.cells.foldl (scanCell shared) ([], st.maxCol)).2⟩ := by
  unfold scanRow
  rw [h]

theorem scanRows_ok_iff (shared : List String) :
    ∀ (rows : List XmlRow) (st : ScanState),
      (∃ st2, scanRows shared st rows = Except.ok st2)
        ↔ ∀ r ∈ rows, (pyInt (r.rAttr.getD "0")).isSome := by
  intro rows
  induction rows with
  | nil =>
    intro st
    simp [scanRows]
  | cons r rs ih =>
    intro st
    cases hp : pyInt (r.rAttr.getD "0") with
    | none =>
      simp only [scanRows, scanRow_none shared st r hp]
      constructor
      · rintro ⟨st2, h2⟩
        exact Except.noConfusion h2
      · intro hall
        have := hall r (List.mem_cons_self r rs)
        rw [hp] at this
        exact absurd this (by simp)
    | some i =>
      simp only [scanRows, scanRow_some shared st r i hp]
      rw [ih ⟨if i = 0 then st.rows
        else dinsert st.rows i ((r.cells.foldl (scanCell shared) ([], st.maxCol)).1),
        (r.cells.foldl (scanCell shared) ([], st.maxCol)).2⟩]
      constructor
      · intro hall r2 hr2
        rcases List.mem_cons.1 hr2 with rfl | h2
        · simp [hp]
        · exact hall r2 h2
      · intro hall r2 hr2
        exact hall r2 (List.mem_cons_of_mem _ hr2)

theorem scanRows_error (shared : List String) :
    ∀ (rows : List XmlRow) (st : ScanState) (e : LoadError),
      scanRows shared st rows = Except.error e → e = LoadError.RowIndexError := by
  intro rows
  induction rows with
  | nil =>
    intro st e h
    exact Except.noConfusion h
  | cons r rs ih =>
    intro st e h
    cases hp : pyInt (r.rAttr.getD "0") with
    | none =>
      simp only [scanRows, scanRow_none shared st r hp] at h
      injection h with h2
      exact h2.symm
    | some i =>
      simp only [scanRows, scanRow_some shared st r i hp] at h
      exact ih _ e h

theorem scanRows_lookup (shared : List String) :
    ∀ (rows : List XmlRow) (st st2 : ScanState),
      scanRows shared st rows = Except.ok st2 →
      ∀ i : ℤ, (st2.rows.lookup i).isSome
        ↔ ((st.rows.lookup i).isSome
            ∨ (i ≠ 0 ∧ ∃ r ∈ rows, pyInt (r.rAttr.getD "0") = some i)) := by
  intro rows
  induction rows with
  | nil =>
    intro st st2 h i
    simp only [scanRows] at h
    injection h with h
    subst h
    simp
  | cons r rs ih =>
    intro st st2 h i
    cases hp : pyInt (r.rAttr.getD "0") with
    | none =>
      simp only [scanRows, scanRow_none shared st r hp] at h
      exact Except.noConfusion h
    | some j =>
      simp only [scanRows, scanRow_some shared st r j hp] at h
      rw [ih _ st2 h i, ScanState_rows_mk]
      by_cases hj : j = 0
      · subst hj
        rw [if_pos rfl]
        constructor
        · rintro (h1 | ⟨h1, r2, h2, h3⟩)
          · exact Or.inl h1
          · exact Or.inr ⟨h1, r2, List.mem_cons_of_mem _ h2, h3⟩
        · rintro (h1 | ⟨h1, r2, h2, h3⟩)
          · exact Or.inl h1
          · rcases List.mem_cons.1 h2 with rfl | h4
            · rw [hp] at h3
              injection h3 with h3
              exact absurd h3.symm h1
            · exact Or.inr ⟨h1, r2, h4, h3⟩
      · rw [if_neg hj, lookup_dinsert]
        by_cases hij : i = j
        · subst hij
          rw [if_pos rfl]
          simp only [Option.isSome_some, true_or, true_iff]
          exact Or.inr ⟨hj, r, List.mem_cons_self r rs, hp⟩
        · rw [if_neg hij]
          constructor
          · rintro (h1 | ⟨h1, r2, h2, h3⟩)
            · exact Or.inl h1
            · exact Or.inr ⟨h1, r2, List.mem_cons_of_mem _ h2, h3⟩
          · rintro (h1 | ⟨h1, r2, h2, h3⟩)
            · exact Or.inl h1
            · rcases List.mem_cons.1 h2 with rfl | h4
              · rw [hp] at h3
                injection h3 with h3
                exact absurd h3.symm hij
              · exact Or.inr ⟨h1, r2, h4, h3⟩

theorem load_nil (pkg : Package) (hw : worksheetNames pkg = []) :
    load_first_sheet pkg = Except.error LoadError.FormatError := by
  unfold load_first_sheet
  rw [hw]

theorem load_scan_error (pkg : Package) (n : String) (ns : List String) (e : LoadError)
    (hw : worksheetNames pkg = n :: ns)
    (hscan : scanRows pkg.sharedStrings ⟨[], 0⟩ (chosenSheetRows pkg) = Except.error e) :
    load_first_sheet pkg = Except.error e := by
  unfold load_first_sheet
  rw [hw, hscan]

theorem load_header_missing (pkg : Package) (n : String) (ns : List String) (st : ScanState)
    (hw : worksheetNames pkg = n :: ns)
    (hscan : scanRows pkg.sharedStrings ⟨[], 0⟩ (chosenSheetRows pkg) = Except.ok st)
    (hl : st.rows.lookup 1 = none) :
    load_first_sheet pkg = Except.error LoadError.HeaderMissingError := by
  unfold load_first_sheet
  rw [hw, hscan]
  show ((match st.rows.lookup 1 with
    | none => Except.error LoadError.HeaderMissingError
    | some hc =>
        Except.ok (SheetData.mk (buildHeaders hc st.maxCol) (buildDataRows st.rows st.maxCol)))
      : Except LoadError SheetData) = _
  rw [hl]

theorem load_ok (pkg : Package) (n : String) (ns : List String) (st : ScanState)
    (hc : List (ℕ × CellValue))
    (hw : worksheetNames pkg = n :: ns)
    (hscan : scanRows pkg.sharedStrings ⟨[], 0⟩ (chosenSheetRows pkg) = Except.ok st)
    (hl : st.rows.lookup 1 = some hc) :
    load_first_sheet pkg
      = Except.ok ⟨buildHeaders hc st.maxCol, buildDataRows st.rows st.maxCol⟩ := by
  unfold load_first_sheet
  rw [hw, hscan]
  show ((match st.rows.lookup 1 with
    | none => Except.error LoadError.HeaderMissingError
    | some hc =>
        Except.ok (SheetData.mk (buildHeaders hc st.maxCol) (buildDataRows st.rows st.maxCol)))
      : Except LoadError SheetData) = _
  rw [hl]

theorem load_total (pkg : Package) :
    (worksheetNames pkg = [] ∧ load_first_sheet pkg = Except.error LoadError.FormatError) ∨
    ((∃ n ns, worksheetNames pkg = n :: ns) ∧
      ((∃ e, scanRows pkg.sharedStrings ⟨[], 0⟩ (chosenSheetRows pkg) = Except.error e ∧
          load_first_sheet pkg = Except.error e ∧ e = LoadError.RowIndexError) ∨
       (∃ st, scanRows pkg.sharedStrings ⟨[], 0⟩ (chosenSheetRows pkg) = Except.ok st ∧
         ((st.rows.lookup 1 = none ∧
            load_first_sheet pkg = Except.error LoadError.HeaderMissingError) ∨
          (∃ hc, st.rows.lookup 1 = some hc ∧
            load_first_sheet pkg
              = Except.ok ⟨buildHeaders hc st.maxCol, buildDataRows st.rows st.maxCol⟩))))) := by
  cases hw : worksheetNames pkg with
  | nil => exact Or.inl ⟨rfl, load_nil pkg hw⟩
  | cons n ns =>
    right
    refine ⟨⟨n, ns, rfl⟩, ?_⟩
    cases hscan : scanRows pkg.sharedStrings ⟨[], 0⟩ (chosenSheetRows pkg) with
    | error e =>
      exact Or.inl ⟨e, rfl, load_scan_error pkg n ns e hw hscan,
        scanRows_error pkg.sharedStrings (chosenSheetRows pkg) ⟨[], 0⟩ e hscan⟩
    | ok st =>
      right
      refine ⟨st, rfl, ?_⟩
      cases hl : st.rows.lookup 1 with
      | none => exact Or.inl ⟨rfl, load_header_missing pkg n ns st hw hscan hl⟩
      | some hc => exact Or.inr ⟨hc, rfl, load_ok pkg n ns st hc hw hscan hl⟩

/-- C5 counterexample: a package whose single worksheet part contains a
row element with the unparsable index attribute `"x"`.  `load_first_sheet`
raises the uncaught `ValueError` from `int("x")` — an error that is
neither the no-worksheet `FormatError` nor the missing-header
`HeaderMissingError`, and no `Sheet` is returned, contradicting the
claim's "in all other cases it returns a Sheet". -/
theorem c5_counterexample :
    load_first_sheet pkgR = Except.error LoadError.RowIndexError ∧
    LoadError.RowIndexError ≠ LoadError.FormatError ∧
    LoadError.RowIndexError ≠ LoadError.HeaderMissingError := by decide

/-- C5 (amended): the extractor fails with `FormatError` exactly when no
worksheet part exists; when a worksheet exists and every row's index
attribute parses as an integer, it fails with `HeaderMissingError`
exactly when no row has index 1 and otherwise returns a Sheet; the two
named error conditions are distinguishable.  (A row index attribute that
does not parse as an integer raises a third, unnamed `ValueError`
instead — the counterexample.) -/
theorem c5_errors (pkg : Package) :
    (load_first_sheet pkg = Except.error LoadError.FormatError ↔ worksheetNames pkg = []) ∧
    (worksheetNames pkg ≠ [] →
      (∀ r ∈ chosenSheetRows pkg, (pyInt (r.rAttr.getD "0")).isSome) →
      ((load_first_sheet pkg = Except.error LoadError.HeaderMissingError
          ↔ ¬ ∃ r ∈ chosenSheetRows pkg, pyInt (r.rAttr.getD "0") = some 1) ∧
        ((∃ r ∈ chosenSheetRows pkg, pyInt (r.rAttr.getD "0") = some 1) →
          ∃ s, load_first_sheet pkg = Except.ok s))) ∧
    LoadError.FormatError ≠ LoadError.HeaderMissingError := by
  refine ⟨⟨?_, load_nil pkg⟩, ?_, by decide⟩
  · intro h
    rcases load_total pkg with ⟨hw, _⟩ | ⟨⟨n, ns, hw⟩, hrest⟩
    · exact hw
    · exfalso
      rcases hrest with ⟨e, _, hload, herr⟩ | ⟨st, _, ⟨_, hload⟩ | ⟨hc2, _, hload⟩⟩
      · rw [hload] at h
        injection h with h2
        rw [herr] at h2
        exact LoadError.noConfusion h2
      · rw [hload] at h
        injection h with h2
        exact LoadError.noConfusion h2
      · rw [hload] at h
        exact Except.noConfusion h
  · intro hw hall
    obtain ⟨st2, hscan⟩ :=
      (scanRows_ok_iff pkg.sharedStrings (chosenSheetRows pkg) ⟨[], 0⟩).2 hall
    obtain ⟨n, ns, hwc⟩ : ∃ n ns, worksheetNames pkg = n :: ns := by
      cases hwx : worksheetNames pkg with
      | nil => exact absurd hwx hw
      | cons n ns => exact ⟨n, ns, rfl⟩
    have hkey := scanRows_lookup pkg.sharedStrings (chosenSheetRows pkg) ⟨[], 0⟩ st2 hscan 1
    constructor
    · constructor
      · intro h hex
        have hsome : (st2.rows.lookup (1 : ℤ)).isSome = true :=
          hkey.2 (Or.inr ⟨by decide, hex⟩)
        cases hl : st2.rows.lookup 1 with
        | some hc =>
          have hload := load_ok pkg n ns st2 hc hwc hscan hl
          rw [hload] at h
          exact Except.noConfusion h
        | none =>
          rw [hl] at hsome
          exact Bool.noConfusion hsome
      · intro hnex
        cases hl : st2.rows.lookup 1 with
        | none => exact load_header_missing pkg n ns st2 hwc hscan hl
        | some hc =>
          exfalso
          have hsome : (st2.rows.lookup (1 : ℤ)).isSome = true := by rw [hl]; rfl
          rcases hkey.1 hsome with h1 | ⟨_, hex⟩
          · exact Bool.noConfusion h1
          · exact hnex hex
    · intro hex
      cases hl : st2.rows.lookup 1 with
      | none =>
        exfalso
        have hsome := hkey.2 (Or.inr ⟨by decide, hex⟩)
        rw [hl] at hsome
        exact Bool.noConfusion hsome
      | some hc => exact ⟨_, load_ok pkg n ns st2 hc hwc hscan hl⟩

/-- C5 witness: the amended theorem at a concrete well-formed package:
the missing-header characterisation holds and extraction returns a
Sheet. -/
theorem c5_witness :
    (load_first_sheet pkgT = Except.error LoadError.HeaderMissingError
      ↔ ¬ ∃ r ∈ chosenSheetRows pkgT, pyInt (r.rAttr.getD "0") = some 1) ∧
    ∃ s, load_first_sheet pkgT = Except.ok s :=
  ⟨((c5_errors pkgT).2.1 (by decide) (by decide)).1,
   ((c5_errors pkgT).2.1 (by decide) (by decide)).2 (by decide)⟩

/-- C6 counterexample: a header cell holding the number 0 — a decoded,
non-empty cell value whose stringification is `"0.0"` — nevertheless
receives the synthetic fallback name `Column1`, because Python's
`rows[1].get(col) or "Column{col}"` treats the falsy value `0.0` like a
missing cell.  The claim's "fallback exactly when the header cell is
empty" therefore fails. -/
theorem c6_counterexample :
    load_first_sheet pkgZ = Except.ok ⟨["Column1"], []⟩ ∧
    parse_cell_value ⟨"A1", none, none, some "0"⟩ [] = CellValue.Number 0 ∧
    CellValue.Number 0 ≠ CellValue.Empty ∧
    pyStr (CellValue.Number 0) = "0.0" := by decide

/-- C6 (amended): for every successfully extracted sheet, the header at
column n (1 ≤ n ≤ max column index) is the whitespace-stripped
stringification of the resolved row-1 cell at column n, with the
synthetic name `Column{n}` used exactly when that cell is absent or
Python-falsy (`None`, the number 0, or the empty string). -/
theorem c6_headers (pkg : Package) (s : SheetData)
    (hok : load_first_sheet pkg = Except.ok s) :
    ∃ st : ScanState,
      scanRows pkg.sharedStrings ⟨[], 0⟩ (chosenSheetRows pkg) = Except.ok st ∧
      ∃ hc, st.rows.lookup 1 = some hc ∧
        s.headers.length = st.maxCol ∧
        ∀ n ∈ List.range' 1 st.maxCol, s.headers[n - 1]? = some (headerString hc n) := by
  rcases load_total pkg with ⟨_, hload⟩ | ⟨_, hrest⟩
  · rw [hload] at hok
    exact Except.noConfusion hok
  · rcases hrest with ⟨e, _, hload, _⟩ | ⟨st, hscan, ⟨_, hload⟩ | ⟨hc, hl, hload⟩⟩
    · rw [hload] at hok
      exact Except.noConfusion hok
    · rw [hload] at hok
      exact Except.noConfusion hok
    · rw [hload] at hok
      injection hok with hok
      refine ⟨st, hscan, hc, hl, ?_, ?_⟩
      · rw [← hok]
        simp [buildHeaders]
      · intro n hn
        obtain ⟨i, hi, rfl⟩ := List.mem_range'.1 hn
        rw [← hok]
        have hlen : i < (buildHeaders hc st.maxCol).length := by
          simp only [buildHeaders, List.length_map, List.length_range']
          omega
        rw [show 1 + 1 * i - 1 = i by omega, List.getElem?_eq_getElem hlen]
        unfold buildHeaders
        simp [List.getElem_map, List.getElem_range']

/-- C6 witness: the amended theorem at a concrete package with a text
header cell. -/
theorem c6_witness :
    ∃ st : ScanState,
      scanRows pkgT.sharedStrings ⟨[], 0⟩ (chosenSheetRows pkgT) = Except.ok st ∧
      ∃ hc, st.rows.lookup 1 = some hc ∧
        (SheetData.mk ["abc"] []).headers.length = st.maxCol ∧
        ∀ n ∈ List.range' 1 st.maxCol,
          (SheetData.mk ["abc"] []).headers[n - 1]? = some (headerString hc n) :=
  c6_headers pkgT ⟨["abc"], []⟩ (by decide)

/-- C7: a successfully extracted worksheet with a header row and zero
data rows produces an empty numeric-column mapping and empty
summary and detail sequences, and the run raises no error. -/
theorem c7_empty (expd : ℕ → ℚ) (pkg : Package) (s : SheetData)
    (hok : load_first_sheet pkg = Except.ok s) (hrows : s.rows = []) :
    numeric_columns s = [] ∧
    summarize_benford expd (numeric_columns s) = ([], []) ∧
    ∀ e : LoadError, load_first_sheet pkg ≠ Except.error e := by
  have h1 : numeric_columns s = [] := by
    rw [numeric_columns_eq]
    apply List.filter_eq_nil_iff.2
    intro p hp
    obtain ⟨k, _, rfl⟩ := List.mem_map.1 hp
    simp [columnValues, hrows]
  refine ⟨h1, by rw [h1]; rfl, ?_⟩
  intro e hbad
  rw [hok] at hbad
  exact Except.noConfusion hbad

/-- C7 witness: the theorem at a concrete package whose worksheet has a
header row and no data rows. -/
theorem c7_witness :
    numeric_columns sheetE = [] ∧
    summarize_benford e0 (numeric_columns sheetE) = ([], []) :=
  ⟨(c7_empty e0 pkgT sheetE (by decide) rfl).1,
   (c7_empty e0 pkgT sheetE (by decide) rfl).2.1⟩

/-- C4 witness: the amended theorem applied to the concrete table
`["Alpha", "Beta"]`: raw index `"1"` yields `Text "Beta"` and raw index
`"5"` (out of range) yields `Empty`. -/
theorem c4_witness :
    parse_cell_value ⟨"A1", some "s", none, some "1"⟩ ["Alpha", "Beta"]
      = CellValue.Text "Beta" ∧
    parse_cell_value ⟨"A1", some "s", none, some "5"⟩ ["Alpha", "Beta"]
      = CellValue.Empty :=
  ⟨((c4_shared_decode ["Alpha", "Beta"] ⟨"A1", some "s", none, some "1"⟩ "1"
      rfl rfl).2 1 (by decide)).1 (by decide) (by decide),
   (((c4_shared_decode ["Alpha", "Beta"] ⟨"A1", some "s", none, some "5"⟩ "5"
      rfl rfl).2 5 (by decide)).2.1 (by decide) (by decide))⟩



